import Mathlib

/-!
Verification development for the OciorABA⋆ demo (`src/main.py`): a shallow
embedding of the Shamir-style erasure codec, the common coin, the per-proposer
ABBA instances, and the node orchestrator, together with theorems settling the
specification claims.

Conventions of the embedding:
* Python integers are modelled as `ℤ` (node indices and loop counters as `ℕ`);
  Python `%` on a positive modulus agrees with `Int.emod`.
* Python `pow(a, b, m)` (fast modular exponentiation) is modelled by `powMod`,
  a fuel-indexed square-and-multiply definition that is kernel-computable.
* Python dicts are modelled as association lists in insertion order
  (`dictInsert` reproduces dict assignment: overwrite keeps the position,
  a fresh key is appended).
* Python exceptions (`assert`, `raise`, `IndexError`, unpacking an empty
  `zip`, `KeyError`) are modelled by `Option`: `none` means the call raised.
* `random.seed(secret)` followed by draws of `random.randrange(_PRIME)` is
  modelled by an explicit stream parameter `rnd : ℕ → ℤ` (the i-th draw after
  seeding); seeding by the secret is reflected by instantiating the stream as
  a function of the secret (`Env.rnd secret`).  `random.choice([0, 1])` of a
  Byzantine voter is likewise a parameter `Env.byz`.
-/

namespace OciorABA

/-- `_PRIME = 2**127 - 1` from the source. -/
def _PRIME : ℕ := 2 ^ 127 - 1

/-- Fuel-indexed square-and-multiply: `powModAux m fuel a b = a ^ b % m`
whenever `b < 2 ^ fuel`.  Structural recursion on the fuel keeps the
definition kernel-computable. -/
def powModAux (m : ℤ) : ℕ → ℤ → ℕ → ℤ
  | 0, _, _ => 1 % m
  | fuel + 1, a, b =>
    if b = 0 then 1 % m
    else
      let r := powModAux m fuel (a * a % m) (b / 2)
      if b % 2 = 1 then r * a % m else r

/-- Python's three-argument `pow(a, b, m)`.  The fuel `b` always suffices
because `b < 2 ^ b`. -/
def powMod (a : ℤ) (b : ℕ) (m : ℤ) : ℤ := powModAux m b a b

/-- `_eval_polynomial(coeffs, x, prime)` from the source: Horner-free
accumulation `result = (result + coef * pow(x, power, prime)) % prime` over
`enumerate(coeffs)` (rendered as indices `power < len(coeffs)`). -/
def _eval_polynomial (coeffs : List ℤ) (x : ℤ) : ℤ :=
  (List.range coeffs.length).foldl
    (fun result power => (result + coeffs.getD power 0 * powMod x power (_PRIME : ℤ)) % (_PRIME : ℤ))
    0

/-- `ECEnc(n, k, secret)`: rejects a secret outside `[0, _PRIME)`, builds the
coefficient list `[secret] + [randrange(_PRIME) for _ in range(k - 1)]`
(the PRNG draws are the stream `rnd`), and evaluates at `x = 1 .. n`. -/
def ECEnc (rnd : ℕ → ℤ) (n k : ℕ) (secret : ℤ) : Option (List (ℤ × ℤ)) :=
  if 0 ≤ secret ∧ secret < (_PRIME : ℤ) then
    let coeffs := secret :: (List.range (k - 1)).map rnd
    some ((List.range' 1 n).map fun i : ℕ => ((i : ℤ), _eval_polynomial coeffs (i : ℤ)))
  else none

/-- `_lagrange_interpolate(x, x_s, y_s, prime)` from the source.  The inner
loop accumulates the numerator and denominator products simultaneously (a
pair accumulator mirrors the two Python variables `num`, `den`); the modular
inverse is `pow(den, prime - 2, prime)`.  Out-of-range index access is
rendered with `getD` (the only caller passes equal-length lists). -/
def _lagrange_interpolate (x : ℤ) (x_s y_s : List ℤ) : ℤ :=
  let k := x_s.length
  (List.range k).foldl
    (fun total i =>
      let xi := x_s.getD i 0
      let yi := y_s.getD i 0
      let nd := (List.range k).foldl
        (fun nd j =>
          if i ≠ j then
            (nd.1 * (x - x_s.getD j 0) % (_PRIME : ℤ), nd.2 * (xi - x_s.getD j 0) % (_PRIME : ℤ))
          else nd)
        (1, 1)
      let inv_den := powMod nd.2 (_PRIME - 2) (_PRIME : ℤ)
      (total + yi * nd.1 * inv_den) % (_PRIME : ℤ))
    0

/-- `ECDec(n, k, shares)` from the source: `x_s, y_s = zip(*shares[:k])`
raises (unpacking an empty `zip`) exactly when `shares[:k]` is empty; then it
interpolates at `x = 0`.  The parameter `n` is unused, as in the source. -/
def ECDec (n k : ℕ) (shares : List (ℤ × ℤ)) : Option ℤ :=
  if shares.take k = [] then none
  else some (_lagrange_interpolate 0 ((shares.take k).unzip.1) ((shares.take k).unzip.2))

/-! ### Association-list rendering of Python dicts -/

/-- Python dict assignment `d[k] = v`: overwrite keeps the insertion
position, a fresh key is appended at the end. -/
def dictInsert {α : Type} (l : List (ℕ × α)) (k : ℕ) (v : α) : List (ℕ × α) :=
  if (l.lookup k).isSome then l.map (fun p => if p.1 = k then (p.1, v) else p)
  else l ++ [(k, v)]

/-- Python `d[k] = f(d[k])` through an object reference (as in
`node.abba[sender].input(...)`): `none` models the `KeyError` raised when the
key is absent. -/
def dictModify {α : Type} (l : List (ℕ × α)) (k : ℕ) (f : α → α) : Option (List (ℕ × α)) :=
  if (l.lookup k).isSome then some (l.map fun p => if p.1 = k then (p.1, f p.2) else p)
  else none

/-! ### Common coin (`class CommonCoin`) -/

/-- State of `CommonCoin`: `coin_shares` is the dict node id → share in
insertion order, `_coin_value` the frozen coin. -/
structure CommonCoin where
  n : ℕ
  t : ℕ
  coin_shares : List (ℕ × ℕ)
  _coin_value : Option ℕ
  deriving DecidableEq

/-- `CommonCoin.__init__`. -/
def CommonCoin.init (n t : ℕ) : CommonCoin := ⟨n, t, [], none⟩

/-- `CommonCoin._try_compute_coin`: once `t + 1` shares are present and no
value is set, XOR the first `t + 1` shares in insertion order. -/
def CommonCoin._try_compute_coin (c : CommonCoin) : CommonCoin :=
  if c.coin_shares.length ≥ c.t + 1 ∧ c._coin_value = none then
    { c with _coin_value := some (((c.coin_shares.map Prod.snd).take (c.t + 1)).foldl Nat.xor 0) }
  else c

/-- `CommonCoin.contribute_share(node_id, round_num)`: the deterministic
placeholder share `(node_id * 7 + round_num * 13) % 2`. -/
def CommonCoin.contribute_share (c : CommonCoin) (node_id round_num : ℕ) : CommonCoin :=
  let share := (node_id * 7 + round_num * 13) % 2
  CommonCoin._try_compute_coin { c with coin_shares := dictInsert c.coin_shares node_id share }

/-- `CommonCoin.get_coin_value`. -/
def CommonCoin.get_coin_value (c : CommonCoin) : Option ℕ := c._coin_value

/-- `CommonCoin.has_coin_value`. -/
def CommonCoin.has_coin_value (c : CommonCoin) : Bool := c._coin_value.isSome

/-! ### ABBA instance (`class ABBA`) -/

/-- State of one `ABBA` instance.  `inputs` is the dict sender → vote in
insertion order. -/
structure ABBA where
  owner : ℕ
  n : ℕ
  t : ℕ
  inputs : List (ℕ × ℤ)
  _output : Option ℤ
  common_coin : CommonCoin
  coin_requested : Bool
  deriving DecidableEq

/-- `ABBA.__init__(owner, n, t)`. -/
def ABBA.init (owner n t : ℕ) : ABBA := ⟨owner, n, t, [], none, CommonCoin.init n t, false⟩

/-- `ones` as computed in `ABBA._try_decide`: `sum(1 for v in
self.inputs.values() if v == 1)`. -/
def ABBA.ones (a : ABBA) : ℕ := (a.inputs.map Prod.snd).count 1

/-- `zeros` as computed in `ABBA._try_decide`. -/
def ABBA.zeros (a : ABBA) : ℕ := (a.inputs.map Prod.snd).count 0

/-- `total_votes = len(self.inputs)` in `ABBA._try_decide`. -/
def ABBA.total_votes (a : ABBA) : ℕ := a.inputs.length

/-- `ABBA._try_decide`, the decision rule of the source. -/
def ABBA._try_decide (a : ABBA) : ABBA :=
  if a._output.isSome then a
  else
    if a.ones ≥ a.n - a.t then { a with _output := some 1 }
    else if a.zeros ≥ a.n - a.t then { a with _output := some 0 }
    else if a.total_votes ≥ a.n - a.t then
      if a.common_coin.has_coin_value then
        if a.ones ≥ a.t + 1 then { a with _output := some 1 }
        else if a.zeros ≥ a.t + 1 then { a with _output := some 0 }
        else { a with _output := (a.common_coin.get_coin_value).map (fun c : ℕ => (c : ℤ)) }
      else a
    else a

/-- `ABBA.input(sender, v)`: a duplicate sender returns immediately; a fresh
vote is recorded, the first ever input triggers the coin contribution
(round 1), and `_try_decide` runs. -/
def ABBA.input (a : ABBA) (sender : ℕ) (v : ℤ) : ABBA :=
  if (a.inputs.lookup sender).isSome then a
  else
    let a := { a with inputs := a.inputs ++ [(sender, v)] }
    let a :=
      if a.coin_requested then a
      else { a with common_coin := a.common_coin.contribute_share sender 1, coin_requested := true }
    ABBA._try_decide a

/-- `ABBA.has_output`. -/
def ABBA.has_output (a : ABBA) : Bool := a._output.isSome

/-- `ABBA.get_output`. -/
def ABBA.get_output (a : ABBA) : Option ℤ := a._output

/-! ### Node orchestrator (`class OciorABAStarNode`) and global registry -/

/-- Environment of unmodellable library calls: `rnd secret i` is the i-th
draw of `random.randrange(_PRIME)` after `random.seed(secret)`; `byz i sender`
is the `random.choice([0, 1])` result of Byzantine node `i` voting on
`sender`. -/
structure Env where
  rnd : ℤ → ℕ → ℤ
  byz : ℕ → ℕ → ℤ

/-- State of `OciorABAStarNode`.  `_shares` keeps the source's name. -/
structure NodeState where
  id : ℕ
  n : ℕ
  t : ℕ
  is_byzantine : Bool
  vi : List (ℕ × Option ℤ)
  _shares : List (ℤ × ℤ)
  pending_shares : List (ℕ × (ℤ × ℤ))
  rbc_shares : List (ℕ × (ℤ × ℤ))
  abba : List (ℕ × ABBA)
  abba_out : List (ℕ × ℤ)
  final_decision : Option ℤ
  protocol_complete : Bool
  deriving DecidableEq

/-- `OciorABAStarNode.__init__(node_id, n, t, is_byzantine)`. -/
def NodeState.init (node_id n t : ℕ) (is_byzantine : Bool) : NodeState where
  id := node_id
  n := n
  t := t
  is_byzantine := is_byzantine
  vi := (List.range' 1 n).map fun j => (j, none)
  _shares := []
  pending_shares := []
  rbc_shares := []
  abba := (List.range' 1 n).map fun j => (j, ABBA.init j n t)
  abba_out := []
  final_decision := none
  protocol_complete := false

/-- The global registry `NODES` (insertion order) — the whole system state. -/
structure Sys where
  nodes : List (ℕ × NodeState)
  deriving DecidableEq

/-- Replace the registry entry of node `i` (the Python object is mutated in
place; `none` would mean the node vanished from the registry, which cannot
happen for `self`). -/
def Sys.setNode (sys : Sys) (i : ℕ) (nd : NodeState) : Option Sys :=
  (dictModify sys.nodes i fun _ => nd).map Sys.mk

/-- `NodeState._finalize`: `Aones` is the set comprehension over `abba_out`,
`Bones` its first `t + 1` elements in ascending order; a `Bones` member with
no RBC share just sets `protocol_complete`; otherwise the node decodes —
from its **own** `_shares`, exactly as the source does. -/
def NodeState._finalize (node : NodeState) : Option NodeState :=
  let Aones := ((node.abba_out.filter fun p => p.2 == 1).map Prod.fst).dedup
  if Aones.length < node.t + 1 then
    some { node with final_decision := none, protocol_complete := true }
  else
    let Bones := (List.insertionSort (· ≤ ·) Aones).take (node.t + 1)
    let missing := Bones.filter fun j => (node.rbc_shares.lookup j).isNone
    if missing ≠ [] then some { node with protocol_complete := true }
    else do
      let shares ← Bones.mapM fun j => node._shares.get? (j - 1)
      let recovered ← ECDec node.n (node.t + 1) shares
      some { node with final_decision := some recovered, protocol_complete := true }

/-- `NodeState._inject_default_votes`: once any `abba_out` is set, vote `0`
(as `self.id`) into every own ABBA instance not yet collected. -/
def NodeState._inject_default_votes (node : NodeState) : Option NodeState :=
  if node.abba_out.length > 0 then
    (List.range' 1 node.n).foldlM
      (fun nd j =>
        if (nd.abba_out.lookup j).isNone then
          (dictModify nd.abba j fun ab => ab.input nd.id 0).map fun a => { nd with abba := a }
        else some nd)
      node
  else some node

/-- `NodeState._process_abba`: collect fresh ABBA outputs into `abba_out`,
inject default votes, finalize when all `n` have decided. -/
def NodeState._process_abba (node : NodeState) : Option NodeState :=
  let node :=
    { node with
      abba_out := node.abba.foldl
        (fun acc (p : ℕ × ABBA) =>
          match p.2.get_output with
          | some v => if (acc.lookup p.1).isNone then acc ++ [(p.1, v)] else acc
          | none => acc)
        node.abba_out }
  do
    let node ← node._inject_default_votes
    if node.abba_out.length = node.n then node._finalize else some node

/-- The vote fan-out inside `_process_share`: `for node in NODES.values():
node.abba[sender].input(self.id, vote)`. -/
def Sys.injectVotes (sys : Sys) (sender voter : ℕ) (vote : ℤ) : Option Sys :=
  (sys.nodes.mapM fun (p : ℕ × NodeState) =>
    (dictModify p.2.abba sender fun ab => ab.input voter vote).map
      fun a => (p.1, { p.2 with abba := a })).map Sys.mk

/-- `OciorABAStarNode._process_share(sender, share)`: the `assert
x_i_j == x_j` raises on mismatch (`none`); an honest node votes `1` iff the
share's `y` matches its own expectation, a Byzantine one votes
`random.choice([0, 1])`; the vote is fanned out to every node's
`abba[sender]`, then `self._process_abba()` runs. -/
def _process_share (env : Env) (sys : Sys) (i sender : ℕ) (share : ℤ × ℤ) : Option Sys := do
  let node ← sys.nodes.lookup i
  let exp ← node._shares.get? (sender - 1)
  if share.1 ≠ exp.1 then none
  else do
    let vote : ℤ :=
      if node.is_byzantine then env.byz i sender
      else if share.2 = exp.2 then 1 else 0
    let sys ← sys.setNode i { node with vi := dictInsert node.vi sender (some vote) }
    let sys ← sys.injectVotes sender i vote
    let node ← sys.nodes.lookup i
    let node ← node._process_abba
    sys.setNode i node

/-- `OciorABAStarNode.on_rbc_delivery(sender, share)`: record the share; if
own shares are not ready yet, buffer, else process. -/
def on_rbc_delivery (env : Env) (sys : Sys) (i sender : ℕ) (share : ℤ × ℤ) : Option Sys := do
  let node ← sys.nodes.lookup i
  let node := { node with rbc_shares := dictInsert node.rbc_shares sender share }
  if node._shares = [] then
    sys.setNode i { node with pending_shares := node.pending_shares ++ [(sender, share)] }
  else do
    let sys ← sys.setNode i node
    _process_share env sys i sender share

/-- `RBC.broadcast(share)` by `owner`: deliver to every registered node in
registry order. -/
def RBC.broadcast (env : Env) (sys : Sys) (owner : ℕ) (share : ℤ × ℤ) : Option Sys :=
  (sys.nodes.map Prod.fst).foldlM (fun s k => on_rbc_delivery env s k owner share) sys

/-- `OciorABAStarNode.propose(secret)`: encode (a Byzantine node corrupts the
secret first), broadcast the own share, then drain the pending buffer. -/
def propose (env : Env) (sys : Sys) (i : ℕ) (secret : ℤ) : Option Sys := do
  let node ← sys.nodes.lookup i
  let sec : ℤ :=
    if node.is_byzantine then (secret + (i : ℤ) * 1000) % (_PRIME : ℤ) else secret
  let sh ← ECEnc (env.rnd sec) node.n (node.t + 1) sec
  let sys ← sys.setNode i { node with _shares := sh }
  let xy ← sh.get? (i - 1)
  let sys ← RBC.broadcast env sys i xy
  let node ← sys.nodes.lookup i
  let sys ← node.pending_shares.foldlM (fun s p => _process_share env s i p.1 p.2) sys
  let node ← sys.nodes.lookup i
  sys.setNode i { node with pending_shares := [] }

/-- One pass of the driver's completion loop: `for node in NODES.values():
if not node.protocol_complete: node._process_abba()`. -/
def driverSweep (sys : Sys) : Option Sys :=
  (sys.nodes.map Prod.fst).foldlM
    (fun s k => do
      let nd ← s.nodes.lookup k
      if nd.protocol_complete then some s
      else do
        let nd ← nd._process_abba
        s.setNode k nd)
    sys

/-- The driver's node construction for `n` nodes of which the listed ones are
Byzantine. -/
def Sys.init (n t : ℕ) (byzantine : List ℕ) : Sys :=
  ⟨(List.range' 1 n).map fun i => (i, NodeState.init i n t (byzantine.contains i))⟩

/-! ### Spec-side definitions and concrete scenario states used by the
claims (the PRNG stream instantiations pick the all-zero draw stream, which
makes every honest polynomial constant). -/

/-- `_PRIME = 2^127 - 1` is the Mersenne prime M127 (Lucas-Lehmer test). -/
instance : Fact (Nat.Prime _PRIME) :=
  ⟨by
    have h : _PRIME = mersenne 127 := rfl
    rw [h]
    exact lucas_lehmer_sufficiency 127 (by norm_num) (by norm_num)⟩

/-- The ABBA decision rule exactly as the specification words it, to be
compared with the implementation's `ABBA._try_decide`. -/
def specDecision (n t : ℕ) (votes : List ℤ) (coin : Option ℕ) : Option ℤ :=
  if votes.count 1 ≥ n - t then some 1
  else if votes.count 0 ≥ n - t then some 0
  else if votes.length ≥ n - t ∧ coin.isSome then
    if votes.count 1 ≥ t + 1 then some 1
    else if votes.count 0 ≥ t + 1 then some 0
    else coin.map fun c : ℕ => (c : ℤ)
  else none

/-- Feeding a list of `(sender, vote)` inputs into an ABBA instance. -/
def runInputs (a : ABBA) (l : List (ℕ × ℤ)) : ABBA :=
  l.foldl (fun s p => s.input p.1 p.2) a

/-- All-zero PRNG draw stream and Byzantine vote stream. -/
def demoEnv : Env := ⟨fun _ _ => 0, fun _ _ => 0⟩

/-- The system of four honest nodes after node 1 proposes secret 5 with the
all-zero coefficient stream: node 1 holds `_shares = [(1,5),(2,5),(3,5),(4,5)]`. -/
def demoSys : Sys := (propose demoEnv (Sys.init 4 1 []) 1 5).getD (Sys.init 4 1 [])

/-- Node 1's state inside `demoSys`. -/
def demoNode : NodeState := (demoSys.nodes.lookup 1).getD (NodeState.init 1 4 1 false)

/-- The state node 4 reaches in the `runC3` scenario just before its
finalization: it proposed 6 (own constant polynomial, shares all `6`), the
three peers proposed 5 and broadcast `(j, 5)`; exactly ABBAs 1, 2, 3 decided
`1`, so `B = [1, 2]` and both members have recorded RBC shares.  The `abba`
field is not read by `_finalize` and is left empty. -/
def cexFinalizeNode : NodeState where
  id := 4
  n := 4
  t := 1
  is_byzantine := false
  vi := [(1, some 0), (2, some 0), (3, some 0), (4, some 1)]
  _shares := [(1, 6), (2, 6), (3, 6), (4, 6)]
  pending_shares := []
  rbc_shares := [(1, (1, 5)), (2, (2, 5)), (3, (3, 5)), (4, (4, 6))]
  abba := []
  abba_out := [(1, 1), (2, 1), (3, 1), (4, 0)]
  final_decision := none
  protocol_complete := false

/-- Four honest nodes; nodes 1-3 propose 5 and node 4 proposes 6 through the
public `propose` API, followed by one pass of the driver's completion loop. -/
def runC3 : Option Sys := do
  let sys ← propose demoEnv (Sys.init 4 1 []) 1 5
  let sys ← propose demoEnv sys 2 5
  let sys ← propose demoEnv sys 3 5
  let sys ← propose demoEnv sys 4 6
  driverSweep sys

/-- The encoder output for `ECEnc (fun _ => 0) (_PRIME + 1) 2 1`: with the
all-zero draw stream the polynomial is constant `1` modulo `_PRIME`, so every
share has `y = 1`, and the x coordinates `1` and `_PRIME + 1` collide modulo
`_PRIME`. -/
def cexShares : List (ℤ × ℤ) :=
  (List.range' 1 (_PRIME + 1)).map fun i : ℕ =>
    ((i : ℤ), _eval_polynomial ((1 : ℤ) :: (List.range (2 - 1)).map fun _ => (0 : ℤ)) (i : ℤ))

/-! ### Theorems -/

theorem _PRIME_posZ : (0 : ℤ) < (_PRIME : ℤ) := by norm_num [_PRIME]

theorem _PRIME_neZ : (_PRIME : ℤ) ≠ 0 := ne_of_gt _PRIME_posZ

theorem pow_PRIME_sub_two (a : ZMod _PRIME) : a ^ (_PRIME - 2) = a⁻¹ := by
  rcases eq_or_ne a 0 with rfl | ha
  · rw [inv_zero, zero_pow]
    norm_num [_PRIME]
  · have h1 : a ^ (_PRIME - 1) = 1 := ZMod.pow_card_sub_one_eq_one ha
    have h2 : _PRIME - 1 = (_PRIME - 2) + 1 := by norm_num [_PRIME]
    rw [h2, pow_succ] at h1
    exact eq_inv_of_mul_eq_one_left h1

theorem pow_emod (a n : ℤ) (b : ℕ) : a ^ b % n = (a % n) ^ b % n := by
  induction b with
  | zero => simp
  | succ b ih =>
    rw [pow_succ, pow_succ, Int.mul_emod, ih, Int.mul_emod ((a % n) ^ b) (a % n),
      Int.emod_emod_of_dvd _ dvd_rfl]

theorem powModAux_eq (m : ℤ) (fuel : ℕ) :
    ∀ (a : ℤ) (b : ℕ), b < 2 ^ fuel → powModAux m fuel a b = a ^ b % m := by
  induction fuel with
  | zero =>
    intro a b hb
    have hb0 : b = 0 := by simpa using hb
    subst hb0
    simp [powModAux]
  | succ fuel ih =>
    intro a b hb
    rw [powModAux]
    by_cases hb0 : b = 0
    · subst hb0; simp
    · have hhalf : b / 2 < 2 ^ fuel := by
        have h2 : (2 : ℕ) ^ (fuel + 1) = 2 ^ fuel * 2 := pow_succ 2 fuel
        omega
      have hrec : powModAux m fuel (a * a % m) (b / 2) = (a * a) ^ (b / 2) % m := by
        rw [ih _ _ hhalf, ← pow_emod]
      have hsq : (a * a) ^ (b / 2) = a ^ (2 * (b / 2)) := by
        rw [pow_mul, sq]
      simp only [hb0, if_false, hrec, hsq]
      by_cases hpar : b % 2 = 1
      · have hb2 : b = 2 * (b / 2) + 1 := by omega
        simp only [hpar, if_true]
        rw [Int.mul_emod, Int.emod_emod_of_dvd _ dvd_rfl, ← Int.mul_emod, ← pow_succ]
        rw [← hb2]
      · have hb2 : b = 2 * (b / 2) := by omega
        simp only [hpar, if_false]
        rw [← hb2]

theorem powMod_eq (a : ℤ) (b : ℕ) (m : ℤ) : powMod a b m = a ^ b % m :=
  powModAux_eq m b a b (Nat.lt_two_pow b)

theorem int_eq_of_zmod_eq {n : ℕ} {a b : ℤ} (h : (0 : ℤ) ≤ a) (h2 : a < n) (h3 : 0 ≤ b)
    (h4 : b < n) (hc : (a : ZMod n) = b) : a = b := by
  have h5 := (ZMod.intCast_eq_intCast_iff' a b n).mp hc
  rwa [Int.emod_eq_of_lt h h2, Int.emod_eq_of_lt h3 h4] at h5

/-- Two integers less than `n` apart with equal residues are equal. -/
theorem int_eq_of_zmod_eq_of_dist {n : ℕ} {a b : ℤ} (h1 : a - b < (n : ℤ))
    (h2 : b - a < (n : ℤ)) (hc : (a : ZMod n) = (b : ZMod n)) : a = b := by
  have hd : (n : ℤ) ∣ b - a := ((ZMod.intCast_eq_intCast_iff a b n).mp hc).dvd
  have h0 : b - a = 0 := Int.eq_zero_of_abs_lt_dvd hd (abs_lt.mpr ⟨by omega, h2⟩)
  omega

/-! ### fold-to-Finset bridges -/

theorem list_range_sum {M : Type} [AddCommMonoid M] (k : ℕ) (f : ℕ → M) :
    ((List.range k).map f).sum = ∑ j ∈ Finset.range k, f j := by
  induction k with
  | zero => simp
  | succ k ih =>
    rw [List.range_succ, Finset.sum_range_succ, List.map_append, List.sum_append, ih]
    simp

theorem list_range_filter_prod {M : Type} [CommMonoid M] (k : ℕ) (p : ℕ → Prop) [DecidablePred p]
    (f : ℕ → M) :
    (((List.range k).filter (fun j => decide (p j))).map f).prod
      = ∏ j ∈ (Finset.range k).filter p, f j := by
  induction k with
  | zero => simp
  | succ k ih =>
    rw [List.range_succ, Finset.range_succ, List.filter_append, List.map_append, List.prod_append,
      Finset.filter_insert]
    by_cases h : p k
    · rw [if_pos h, Finset.prod_insert (by simp)]
      simp [h, ih, mul_comm]
    · rw [if_neg h]
      simp [h, ih]

theorem foldl_emod_add_cast (g : ℕ → ℤ) (l : List ℕ) (a : ℤ) :
    ((l.foldl (fun t i => (t + g i) % (_PRIME : ℤ)) a : ℤ) : ZMod _PRIME)
      = (a : ZMod _PRIME) + (l.map fun i => ((g i : ℤ) : ZMod _PRIME)).sum := by
  induction l generalizing a with
  | nil => simp
  | cons x xs ih =>
    rw [List.foldl_cons, ih, List.map_cons, List.sum_cons, ZMod.intCast_mod]
    push_cast
    ring

theorem foldl_emod_mul_cast (g : ℕ → ℤ) (p : ℕ → Prop) [DecidablePred p] (l : List ℕ) (a : ℤ) :
    ((l.foldl (fun t j => if p j then t * g j % (_PRIME : ℤ) else t) a : ℤ) : ZMod _PRIME)
      = (a : ZMod _PRIME) * ((l.filter fun j => decide (p j)).map fun j => ((g j : ℤ) : ZMod _PRIME)).prod := by
  induction l generalizing a with
  | nil => simp
  | cons x xs ih =>
    by_cases h : p x
    · rw [List.foldl_cons, if_pos h, ih, List.filter_cons_of_pos (by simpa using h),
        List.map_cons, List.prod_cons, ZMod.intCast_mod]
      push_cast
      ring
    · rw [List.foldl_cons, if_neg h, ih, List.filter_cons_of_neg (by simpa using h)]

theorem foldl_pair_split (f g : ℤ → ℕ → ℤ) (p : ℕ → Prop) [DecidablePred p] (l : List ℕ)
    (a b : ℤ) :
    l.foldl (fun nd j => if p j then (f nd.1 j, g nd.2 j) else nd) (a, b)
      = (l.foldl (fun t j => if p j then f t j else t) a,
         l.foldl (fun t j => if p j then g t j else t) b) := by
  induction l generalizing a b with
  | nil => rfl
  | cons x xs ih => by_cases h : p x <;> simp [h, ih]

theorem foldl_emod_range (g : ℤ → ℕ → ℤ) (l : List ℕ) (a : ℤ) (h0 : 0 ≤ a)
    (h1 : a < (_PRIME : ℤ)) :
    0 ≤ l.foldl (fun t i => g t i % (_PRIME : ℤ)) a
      ∧ l.foldl (fun t i => g t i % (_PRIME : ℤ)) a < (_PRIME : ℤ) := by
  induction l generalizing a with
  | nil => exact ⟨h0, h1⟩
  | cons x xs ih =>
    exact ih _ (Int.emod_nonneg _ _PRIME_neZ) (Int.emod_lt_of_pos _ _PRIME_posZ)

theorem powMod_cast (a : ℤ) (b : ℕ) :
    ((powMod a b (_PRIME : ℤ) : ℤ) : ZMod _PRIME) = (a : ZMod _PRIME) ^ b := by
  rw [powMod_eq, ZMod.intCast_mod]
  push_cast
  ring

theorem filter_ne_erase (k i : ℕ) :
    (Finset.range k).filter (fun j => i ≠ j) = (Finset.range k).erase i := by
  ext j
  simp [Finset.mem_filter, Finset.mem_erase, and_comm, ne_comm]


theorem eval_poly_cast (coeffs : List ℤ) (x : ℤ) :
    ((_eval_polynomial coeffs x : ℤ) : ZMod _PRIME)
      = ∑ i ∈ Finset.range coeffs.length,
          ((coeffs.getD i 0 : ℤ) : ZMod _PRIME) * (x : ZMod _PRIME) ^ i := by
  rw [_eval_polynomial,
    foldl_emod_add_cast (fun power => coeffs.getD power 0 * powMod x power (_PRIME : ℤ)),
    list_range_sum]
  push_cast [powMod_cast]
  simp

theorem num_cast (x : ℤ) (x_s : List ℤ) (i : ℕ) :
    ((((List.range x_s.length).foldl
        (fun nd j =>
          if i ≠ j then
            (nd.1 * (x - x_s.getD j 0) % (_PRIME : ℤ),
              nd.2 * (x_s.getD i 0 - x_s.getD j 0) % (_PRIME : ℤ))
          else nd)
        (1, 1)).1 : ℤ) : ZMod _PRIME)
      = ∏ j ∈ (Finset.range x_s.length).erase i,
          ((x : ZMod _PRIME) - ((x_s.getD j 0 : ℤ) : ZMod _PRIME)) := by
  rw [foldl_pair_split (fun t j => t * (x - x_s.getD j 0) % (_PRIME : ℤ))
      (fun t j => t * (x_s.getD i 0 - x_s.getD j 0) % (_PRIME : ℤ)) (fun j => i ≠ j),
    foldl_emod_mul_cast (fun j => x - x_s.getD j 0) (fun j => i ≠ j),
    list_range_filter_prod _ (fun j => i ≠ j), filter_ne_erase]
  push_cast
  simp

theorem den_cast (x : ℤ) (x_s : List ℤ) (i : ℕ) :
    ((((List.range x_s.length).foldl
        (fun nd j =>
          if i ≠ j then
            (nd.1 * (x - x_s.getD j 0) % (_PRIME : ℤ),
              nd.2 * (x_s.getD i 0 - x_s.getD j 0) % (_PRIME : ℤ))
          else nd)
        (1, 1)).2 : ℤ) : ZMod _PRIME)
      = ∏ j ∈ (Finset.range x_s.length).erase i,
          (((x_s.getD i 0 : ℤ) : ZMod _PRIME) - ((x_s.getD j 0 : ℤ) : ZMod _PRIME)) := by
  rw [foldl_pair_split (fun t j => t * (x - x_s.getD j 0) % (_PRIME : ℤ))
      (fun t j => t * (x_s.getD i 0 - x_s.getD j 0) % (_PRIME : ℤ)) (fun j => i ≠ j),
    foldl_emod_mul_cast (fun j => x_s.getD i 0 - x_s.getD j 0) (fun j => i ≠ j),
    list_range_filter_prod _ (fun j => i ≠ j), filter_ne_erase]
  push_cast
  simp

theorem lagrange_cast (x : ℤ) (x_s y_s : List ℤ) :
    ((_lagrange_interpolate x x_s y_s : ℤ) : ZMod _PRIME)
      = ∑ i ∈ Finset.range x_s.length,
          ((y_s.getD i 0 : ℤ) : ZMod _PRIME)
            * (∏ j ∈ (Finset.range x_s.length).erase i,
                ((x : ZMod _PRIME) - ((x_s.getD j 0 : ℤ) : ZMod _PRIME)))
            * (∏ j ∈ (Finset.range x_s.length).erase i,
                (((x_s.getD i 0 : ℤ) : ZMod _PRIME) - ((x_s.getD j 0 : ℤ) : ZMod _PRIME)))⁻¹ := by
  rw [_lagrange_interpolate]
  rw [foldl_emod_add_cast
    (fun i =>
      y_s.getD i 0
        * ((List.range x_s.length).foldl
            (fun nd j =>
              if i ≠ j then
                (nd.1 * (x - x_s.getD j 0) % (_PRIME : ℤ),
                  nd.2 * (x_s.getD i 0 - x_s.getD j 0) % (_PRIME : ℤ))
              else nd)
            (1, 1)).1
        * powMod
            ((List.range x_s.length).foldl
              (fun nd j =>
                if i ≠ j then
                  (nd.1 * (x - x_s.getD j 0) % (_PRIME : ℤ),
                    nd.2 * (x_s.getD i 0 - x_s.getD j 0) % (_PRIME : ℤ))
                else nd)
              (1, 1)).2
            (_PRIME - 2) (_PRIME : ℤ))
    (List.range x_s.length) 0]
  rw [list_range_sum]
  rw [Int.cast_zero, zero_add]
  refine Finset.sum_congr rfl fun i _ => ?_
  push_cast [powMod_cast, num_cast, den_cast, pow_PRIME_sub_two]
  ring


theorem lagrange_range (x : ℤ) (x_s y_s : List ℤ) :
    0 ≤ _lagrange_interpolate x x_s y_s ∧ _lagrange_interpolate x x_s y_s < (_PRIME : ℤ) := by
  rw [_lagrange_interpolate]
  exact foldl_emod_range _ _ 0 le_rfl _PRIME_posZ

set_option maxHeartbeats 1000000 in
/-- C2 (amended): for every secret in `[0, _PRIME)`, every `n` with
`1 ≤ n ≤ _PRIME`, every `k` with `1 ≤ k ≤ n`, every coefficient draw stream,
and every subset `S` of exactly `k` distinct shares of `ECEnc`'s output,
`ECDec S k` returns the original secret.  (The bound `n ≤ _PRIME` is forced
by `codec_roundtrip_counterexample`: for `n ≥ _PRIME + 1` two share
x-coordinates collide modulo `_PRIME`; up to `n = _PRIME` the coordinates
`1 .. n` stay distinct in the field and the round-trip holds.) -/
theorem codec_roundtrip (rnd : ℕ → ℤ) (n k : ℕ) (secret : ℤ) (shares S : List (ℤ × ℤ))
    (hs0 : 0 ≤ secret) (hsP : secret < (_PRIME : ℤ)) (hk : 1 ≤ k) (hkn : k ≤ n)
    (hnP : n ≤ _PRIME) (henc : ECEnc rnd n k secret = some shares)
    (hsub : S ⊆ shares) (hnd : S.Nodup) (hlen : S.length = k) :
    ECDec n k S = some secret := by
  rw [ECEnc, if_pos ⟨hs0, hsP⟩] at henc
  set coeffs : List ℤ := secret :: (List.range (k - 1)).map rnd with hco
  simp only [Option.some.injEq] at henc
  have hclen : coeffs.length = k := by
    simp only [hco, List.length_cons, List.length_map, List.length_range]
    omega
  -- membership structure of S
  have hmem : ∀ p ∈ S, ∃ m : ℕ, 1 ≤ m ∧ m ≤ n ∧ p = ((m : ℤ), _eval_polynomial coeffs (m : ℤ)) := by
    intro p hp
    have hp' : p ∈ shares := hsub hp
    rw [← henc] at hp'
    obtain ⟨m, hm, hpe⟩ := List.mem_map.mp hp'
    have hm' := List.mem_range'_1.mp hm
    exact ⟨m, hm'.1, by omega, hpe.symm⟩
  -- the decode call
  have hSlen : 0 < S.length := by omega
  have htake : S.take k = S := by rw [← hlen]; exact List.take_length S
  rw [ECDec, htake, if_neg (List.ne_nil_of_length_pos hSlen), List.unzip_fst, List.unzip_snd]
  set xs : List ℤ := S.map Prod.fst with hxs
  set ys : List ℤ := S.map Prod.snd with hys
  have hxlen : xs.length = k := by simp [hxs, hlen]
  have hylen : ys.length = k := by simp [hys, hlen]
  -- pointwise description of the entries
  have hget : ∀ i : ℕ, i < k → ∃ m : ℕ, 1 ≤ m ∧ m ≤ n ∧ xs.getD i 0 = (m : ℤ)
      ∧ ys.getD i 0 = _eval_polynomial coeffs (m : ℤ) := by
    intro i hi
    have hiS : i < S.length := by omega
    obtain ⟨m, h1, h2, hpe⟩ := hmem S[i] (List.getElem_mem hiS)
    refine ⟨m, h1, h2, ?_, ?_⟩
    · rw [List.getD_eq_getElem xs 0 (by omega : i < xs.length)]
      simp only [hxs, List.getElem_map, hpe]
    · rw [List.getD_eq_getElem ys 0 (by omega : i < ys.length)]
      simp only [hys, List.getElem_map, hpe]
  -- distinctness of the x coordinates
  have hfst : ∀ p ∈ S, ∀ q ∈ S, p.1 = q.1 → p = q := by
    intro p hp q hq hpq
    obtain ⟨mp, _, _, hpe⟩ := hmem p hp
    obtain ⟨mq, _, _, hqe⟩ := hmem q hq
    rw [hpe, hqe] at hpq ⊢
    simp only at hpq
    have : mp = mq := by exact_mod_cast hpq
    rw [this]
  have hxnodup : xs.Nodup := List.Nodup.map_on hfst hnd
  -- cast x-coordinates are injective on `range k`
  set v : ℕ → ZMod _PRIME := fun i => ((xs.getD i 0 : ℤ) : ZMod _PRIME) with hv
  set r : ℕ → ZMod _PRIME := fun i => ((ys.getD i 0 : ℤ) : ZMod _PRIME) with hr
  have hinj : Set.InjOn v (Finset.range k) := by
    intro i hi j hj hij
    have hik : i < k := by simpa using hi
    have hjk : j < k := by simpa using hj
    obtain ⟨mi, hmi1, hmin, hxi, _⟩ := hget i hik
    obtain ⟨mj, hmj1, hmjn, hxj, _⟩ := hget j hjk
    have hbi : (mi : ℤ) ≤ (_PRIME : ℤ) := by exact_mod_cast le_trans hmin hnP
    have hbj : (mj : ℤ) ≤ (_PRIME : ℤ) := by exact_mod_cast le_trans hmjn hnP
    have hbi1 : (1 : ℤ) ≤ (mi : ℤ) := by exact_mod_cast hmi1
    have hbj1 : (1 : ℤ) ≤ (mj : ℤ) := by exact_mod_cast hmj1
    have hxij : xs.getD i 0 = xs.getD j 0 := by
      apply int_eq_of_zmod_eq_of_dist (n := _PRIME) _ _ hij
      · rw [hxi, hxj]
        omega
      · rw [hxi, hxj]
        omega
    have hik' : i < xs.length := by omega
    have hjk' : j < xs.length := by omega
    rw [List.getD_eq_getElem xs 0 hik', List.getD_eq_getElem xs 0 hjk'] at hxij
    have hfin : (⟨i, hik'⟩ : Fin xs.length) = ⟨j, hjk'⟩ :=
      List.nodup_iff_injective_getElem.mp hxnodup hxij
    simpa using congrArg Fin.val hfin
  -- the secret polynomial over the field
  set f : Polynomial (ZMod _PRIME) :=
    ∑ i ∈ Finset.range k, Polynomial.C ((coeffs.getD i 0 : ℤ) : ZMod _PRIME) * Polynomial.X ^ i
    with hf
  have hdeg : f.degree < ((Finset.range k).card : WithBot ℕ) := by
    rw [Finset.card_range, hf]
    apply lt_of_le_of_lt (Polynomial.degree_sum_le _ _)
    rw [Finset.sup_lt_iff (by exact WithBot.bot_lt_coe k)]
    intro i hi
    have h1 : (Polynomial.C ((coeffs.getD i 0 : ℤ) : ZMod _PRIME) * Polynomial.X ^ i).degree
        ≤ (i : WithBot ℕ) := by
      calc (Polynomial.C ((coeffs.getD i 0 : ℤ) : ZMod _PRIME) * Polynomial.X ^ i).degree
          ≤ (Polynomial.C ((coeffs.getD i 0 : ℤ) : ZMod _PRIME)).degree
              + (Polynomial.X ^ i : Polynomial (ZMod _PRIME)).degree := Polynomial.degree_mul_le _ _
        _ ≤ 0 + (i : WithBot ℕ) :=
            add_le_add Polynomial.degree_C_le (le_of_eq (Polynomial.degree_X_pow i))
        _ = (i : WithBot ℕ) := zero_add _
    exact lt_of_le_of_lt h1 (by exact_mod_cast Finset.mem_range.mp hi)
  have heval : ∀ i ∈ Finset.range k, f.eval (v i) = r i := by
    intro i hi
    have hik : i < k := Finset.mem_range.mp hi
    obtain ⟨m, _, _, hxi, hyi⟩ := hget i hik
    rw [hr]
    simp only
    rw [hyi, eval_poly_cast, hclen, hf, Polynomial.eval_finset_sum]
    refine Finset.sum_congr rfl fun j _ => ?_
    rw [Polynomial.eval_mul, Polynomial.eval_C, Polynomial.eval_pow, Polynomial.eval_X, hv]
    simp only
    rw [hxi]
  have heval0 : f.eval 0 = ((secret : ℤ) : ZMod _PRIME) := by
    rw [hf, Polynomial.eval_finset_sum]
    rw [Finset.sum_eq_single 0
      (fun b _ hb => by simp [Polynomial.eval_mul, zero_pow hb])
      (fun h => absurd (Finset.mem_range.mpr (by omega)) h)]
    simp [hco]
  have hfi : f = Lagrange.interpolate (Finset.range k) v r :=
    Lagrange.eq_interpolate_of_eval_eq r hinj hdeg heval
  have hinterp : (Lagrange.interpolate (Finset.range k) v r).eval 0
      = ∑ i ∈ Finset.range k,
          r i * (∏ j ∈ (Finset.range k).erase i, (0 - v j))
            * (∏ j ∈ (Finset.range k).erase i, (v i - v j))⁻¹ := by
    rw [Lagrange.interpolate_apply, Polynomial.eval_finset_sum]
    refine Finset.sum_congr rfl fun i _ => ?_
    rw [Polynomial.eval_mul, Polynomial.eval_C, Lagrange.basis, Polynomial.eval_prod]
    rw [Finset.prod_congr rfl fun j _ =>
      (by simp [Lagrange.basisDivisor] :
        Polynomial.eval 0 (Lagrange.basisDivisor (v i) (v j)) = (v i - v j)⁻¹ * (0 - v j))]
    rw [Finset.prod_mul_distrib, Finset.prod_inv_distrib]
    ring
  have hlc := lagrange_cast 0 xs ys
  rw [hxlen] at hlc
  have hcast : ((_lagrange_interpolate 0 xs ys : ℤ) : ZMod _PRIME) = ((secret : ℤ) : ZMod _PRIME) := by
    rw [hlc, ← heval0, hfi, hinterp]
    refine Finset.sum_congr rfl fun i _ => ?_
    rw [hv, hr]
    push_cast
    ring
  have hrange := lagrange_range 0 xs ys
  have := int_eq_of_zmod_eq hrange.1 hrange.2 hs0 hsP hcast
  rw [this]

theorem try_decide_inputs (a : ABBA) : (a._try_decide).inputs = a.inputs := by
  rw [ABBA._try_decide]
  repeat' first | split | rfl

theorem try_decide_coin (a : ABBA) : (a._try_decide).common_coin = a.common_coin := by
  rw [ABBA._try_decide]
  repeat' first | split | rfl

theorem try_decide_n (a : ABBA) : (a._try_decide).n = a.n := by
  rw [ABBA._try_decide]
  repeat' first | split | rfl

theorem try_decide_t (a : ABBA) : (a._try_decide).t = a.t := by
  rw [ABBA._try_decide]
  repeat' first | split | rfl

theorem try_decide_output_some (a : ABBA) (b : ℤ) (h : a._output = some b) :
    (a._try_decide)._output = some b := by
  rw [ABBA._try_decide, if_pos (by simp [h])]
  exact h

/-- `input` on a fresh sender, unfolded. -/
theorem input_fresh_eq (a : ABBA) (sender : ℕ) (v : ℤ)
    (h : (a.inputs.lookup sender).isSome = false) :
    a.input sender v = ABBA._try_decide
      (if a.coin_requested then { a with inputs := a.inputs ++ [(sender, v)] }
       else { a with
              inputs := a.inputs ++ [(sender, v)],
              common_coin := a.common_coin.contribute_share sender 1,
              coin_requested := true }) := by
  rw [ABBA.input, if_neg (by simp [h])]

theorem lookup_append_none {α : Type} (l : List (ℕ × α)) (s : ℕ) (v : α)
    (h : l.lookup s = none) : (l ++ [(s, v)]).lookup s = some v := by
  induction l with
  | nil => simp [List.lookup]
  | cons p l ih =>
    rcases p with ⟨a, b⟩
    by_cases has : s = a
    · subst has
      simp [List.lookup] at h
    · have hb : (s == a) = false := by simpa using has
      simp only [List.cons_append, List.lookup, hb] at h ⊢
      exact ih h

theorem lookup_append_some {α : Type} (l l₂ : List (ℕ × α)) (s : ℕ)
    (h : (l.lookup s).isSome) : ((l ++ l₂).lookup s).isSome := by
  induction l with
  | nil => simp at h
  | cons p l ih =>
    rcases p with ⟨a, b⟩
    by_cases has : s = a
    · subst has
      simp [List.lookup]
    · have hb : (s == a) = false := by simpa using has
      simp only [List.cons_append, List.lookup, hb] at h ⊢
      exact ih h

theorem try_decide_output_none (a : ABBA) (h : a._output = none) :
    (a._try_decide)._output
      = specDecision a.n a.t (a.inputs.map Prod.snd) a.common_coin._coin_value := by
  rw [ABBA._try_decide, if_neg (by simp [h]), specDecision]
  simp only [List.length_map]
  by_cases h1 : (a.inputs.map Prod.snd).count 1 ≥ a.n - a.t
  · rw [if_pos (show a.ones ≥ a.n - a.t from h1), if_pos h1]
  · rw [if_neg (show ¬ a.ones ≥ a.n - a.t from h1), if_neg h1]
    by_cases h0 : (a.inputs.map Prod.snd).count 0 ≥ a.n - a.t
    · rw [if_pos (show a.zeros ≥ a.n - a.t from h0), if_pos h0]
    · rw [if_neg (show ¬ a.zeros ≥ a.n - a.t from h0), if_neg h0]
      by_cases ht : a.inputs.length ≥ a.n - a.t
      · rw [if_pos (show a.total_votes ≥ a.n - a.t from ht)]
        rcases hc : a.common_coin._coin_value with _ | c
        · rw [if_neg (show ¬ a.common_coin.has_coin_value = true from by
            simp [CommonCoin.has_coin_value, hc])]
          rw [if_neg (show ¬ (a.inputs.length ≥ a.n - a.t
              ∧ (Option.none : Option ℕ).isSome) from by simp)]
          exact h
        · rw [if_pos (show a.common_coin.has_coin_value = true from by
            simp [CommonCoin.has_coin_value, hc])]
          rw [if_pos (show a.inputs.length ≥ a.n - a.t
              ∧ (some c).isSome from ⟨ht, rfl⟩)]
          by_cases hc1 : (a.inputs.map Prod.snd).count 1 ≥ a.t + 1
          · rw [if_pos (show a.ones ≥ a.t + 1 from hc1), if_pos hc1]
          · rw [if_neg (show ¬ a.ones ≥ a.t + 1 from hc1), if_neg hc1]
            by_cases hc0 : (a.inputs.map Prod.snd).count 0 ≥ a.t + 1
            · rw [if_pos (show a.zeros ≥ a.t + 1 from hc0), if_pos hc0]
            · rw [if_neg (show ¬ a.zeros ≥ a.t + 1 from hc0), if_neg hc0]
              simp [CommonCoin.get_coin_value, hc]
      · rw [if_neg (show ¬ a.total_votes ≥ a.n - a.t from ht)]
        rw [if_neg (show ¬ (a.inputs.length ≥ a.n - a.t
            ∧ (a.common_coin._coin_value).isSome) from by simp [ht])]
        exact h

theorem input_n (a : ABBA) (s : ℕ) (v : ℤ) : (a.input s v).n = a.n := by
  rw [ABBA.input]
  split
  · rfl
  · rw [try_decide_n]
    split <;> rfl

theorem input_t (a : ABBA) (s : ℕ) (v : ℤ) : (a.input s v).t = a.t := by
  rw [ABBA.input]
  split
  · rfl
  · rw [try_decide_t]
    split <;> rfl

theorem input_output_some (a : ABBA) (s : ℕ) (v : ℤ) (b : ℤ) (h : a._output = some b) :
    (a.input s v)._output = some b := by
  rw [ABBA.input]
  split
  · exact h
  · apply try_decide_output_some
    split <;> exact h

theorem input_inputs_fresh (a : ABBA) (s : ℕ) (v : ℤ)
    (h : a.inputs.lookup s = none) :
    (a.input s v).inputs = a.inputs ++ [(s, v)] := by
  rw [input_fresh_eq a s v (by simp [h]), try_decide_inputs]
  split <;> rfl

theorem input_lookup_self (a : ABBA) (s : ℕ) (v : ℤ) :
    ((a.input s v).inputs.lookup s).isSome := by
  rcases hdup : a.inputs.lookup s with _ | u
  · rw [input_inputs_fresh a s v hdup, lookup_append_none _ _ _ hdup]
    rfl
  · rw [ABBA.input, if_pos (by simp [hdup]), hdup]
    rfl

theorem input_lookup_mono (a : ABBA) (s : ℕ) (v : ℤ) (j : ℕ)
    (h : (a.inputs.lookup j).isSome) : ((a.input s v).inputs.lookup j).isSome := by
  rcases hdup : a.inputs.lookup s with _ | u
  · rw [input_inputs_fresh a s v hdup]
    exact lookup_append_some _ _ _ h
  · rwa [ABBA.input, if_pos (by simp [hdup])]

theorem run_lookup_mono (l : List (ℕ × ℤ)) (a : ABBA) (j : ℕ)
    (h : (a.inputs.lookup j).isSome) : ((runInputs a l).inputs.lookup j).isSome := by
  induction l generalizing a with
  | nil => exact h
  | cons p l ih => exact ih _ (input_lookup_mono _ _ _ _ h)

theorem run_lookup (l : List (ℕ × ℤ)) (j : ℕ) (w : ℤ) (hm : (j, w) ∈ l) :
    ∀ a : ABBA, ((runInputs a l).inputs.lookup j).isSome := by
  induction l with
  | nil => simp at hm
  | cons p l ih =>
    intro a
    rcases List.mem_cons.mp hm with hp | hp
    · have hself : ((a.input p.1 p.2).inputs.lookup j).isSome := by
        rw [← hp]
        exact input_lookup_self a j w
      exact run_lookup_mono l _ j hself
    · exact ih hp _

theorem try_decide_none_bounds (a : ABBA) (h : (a._try_decide)._output = none) :
    a._output = none ∧ a.ones < a.n - a.t ∧ a.zeros < a.n - a.t
      ∧ (a.total_votes ≥ a.n - a.t → a.common_coin.has_coin_value = false) := by
  rw [ABBA._try_decide] at h
  by_cases hs : a._output.isSome
  · rw [if_pos hs] at h
    rw [h] at hs
    simp at hs
  · rw [if_neg hs] at h
    refine ⟨by simpa using hs, ?_, ?_, ?_⟩
    · by_cases h1 : a.ones ≥ a.n - a.t
      · rw [if_pos h1] at h
        simp at h
      · omega
    · by_cases h1 : a.ones ≥ a.n - a.t
      · rw [if_pos h1] at h
        simp at h
      · rw [if_neg h1] at h
        by_cases h0 : a.zeros ≥ a.n - a.t
        · rw [if_pos h0] at h
          simp at h
        · omega
    · intro htv
      by_cases h1 : a.ones ≥ a.n - a.t
      · rw [if_pos h1] at h
        simp at h
      · rw [if_neg h1] at h
        by_cases h0 : a.zeros ≥ a.n - a.t
        · rw [if_pos h0] at h
          simp at h
        · rw [if_neg h0, if_pos htv] at h
          by_cases hcv : a.common_coin.has_coin_value = true
          · rw [if_pos hcv] at h
            by_cases hc1 : a.ones ≥ a.t + 1
            · rw [if_pos hc1] at h
              simp at h
            · rw [if_neg hc1] at h
              by_cases hc0 : a.zeros ≥ a.t + 1
              · rw [if_pos hc0] at h
                simp at h
              · rw [if_neg hc0] at h
                exfalso
                rw [CommonCoin.has_coin_value] at hcv
                rcases hv : a.common_coin._coin_value with _ | x
                · rw [hv] at hcv
                  simp at hcv
                · rw [show a.common_coin.get_coin_value = a.common_coin._coin_value from rfl,
                    hv] at h
                  simp at h
          · simpa using hcv

theorem input_none_cases (a : ABBA) (s : ℕ) (v : ℤ) (h : (a.input s v)._output = none) :
    a.input s v = a
      ∨ ((a.input s v).ones < a.n - a.t ∧ (a.input s v).zeros < a.n - a.t
          ∧ (a.input s v).inputs ≠ []
          ∧ ((a.input s v).total_votes ≥ a.n - a.t →
              (a.input s v).common_coin.has_coin_value = false)) := by
  rcases hdup : a.inputs.lookup s with _ | u
  · right
    rw [input_fresh_eq a s v (by simp [hdup])] at h ⊢
    have hb := try_decide_none_bounds _ h
    have hones : ∀ x : ABBA, (x._try_decide).ones = x.ones := by
      intro x
      rw [ABBA.ones, ABBA.ones, try_decide_inputs]
    have hzeros : ∀ x : ABBA, (x._try_decide).zeros = x.zeros := by
      intro x
      rw [ABBA.zeros, ABBA.zeros, try_decide_inputs]
    have htot : ∀ x : ABBA, (x._try_decide).total_votes = x.total_votes := by
      intro x
      rw [ABBA.total_votes, ABBA.total_votes, try_decide_inputs]
    rw [hones, hzeros, try_decide_inputs, htot, try_decide_coin]
    by_cases hcr : a.coin_requested
    · rw [if_pos hcr] at hb ⊢
      exact ⟨hb.2.1, hb.2.2.1, by simp, hb.2.2.2⟩
    · rw [if_neg hcr] at hb ⊢
      exact ⟨hb.2.1, hb.2.2.1, by simp, hb.2.2.2⟩
  · left
    rw [ABBA.input, if_pos (by simp [hdup])]

theorem run_n (l : List (ℕ × ℤ)) (a : ABBA) : (runInputs a l).n = a.n := by
  induction l generalizing a with
  | nil => rfl
  | cons p l ih =>
    rw [show runInputs a (p :: l) = runInputs (a.input p.1 p.2) l from rfl, ih, input_n]

theorem run_t (l : List (ℕ × ℤ)) (a : ABBA) : (runInputs a l).t = a.t := by
  induction l generalizing a with
  | nil => rfl
  | cons p l ih =>
    rw [show runInputs a (p :: l) = runInputs (a.input p.1 p.2) l from rfl, ih, input_t]

theorem run_none_bounds (o n t : ℕ) (l : List (ℕ × ℤ))
    (h : (runInputs (ABBA.init o n t) l)._output = none) :
    (runInputs (ABBA.init o n t) l).inputs = []
      ∨ ((runInputs (ABBA.init o n t) l).ones < n - t
          ∧ (runInputs (ABBA.init o n t) l).zeros < n - t
          ∧ ((runInputs (ABBA.init o n t) l).total_votes ≥ n - t →
              (runInputs (ABBA.init o n t) l).common_coin.has_coin_value = false)) := by
  induction l using List.reverseRecOn with
  | nil => left; rfl
  | append_singleton l p ih =>
    have hsplit : runInputs (ABBA.init o n t) (l ++ [p])
        = (runInputs (ABBA.init o n t) l).input p.1 p.2 := by
      rw [runInputs, runInputs, List.foldl_append]
      rfl
    rw [hsplit] at h ⊢
    rcases input_none_cases _ p.1 p.2 h with heq | ⟨h1, h2, _, h4⟩
    · rw [heq] at h ⊢
      exact ih h
    · right
      rw [run_n, run_t] at h1 h2 h4
      exact ⟨h1, h2, h4⟩

/-- C7: the ABBA decision, re-evaluated on each new accepted input, follows
the spec's rule (`specDecision`, first firing condition wins: strong-1,
strong-0, then the coin-assisted rule guarded by `total ≥ n − t` and the
coin having a value), and a decided output never changes. -/
theorem abba_decision_rule (a : ABBA) (sender : ℕ) (v : ℤ) :
    (∀ b : ℤ, a._output = some b → (a.input sender v)._output = some b)
      ∧ (a._output = none → a.inputs.lookup sender = none →
          (a.input sender v)._output
            = specDecision a.n a.t ((a.input sender v).inputs.map Prod.snd)
                ((a.input sender v).common_coin._coin_value)) := by
  constructor
  · intro b hb
    exact input_output_some a sender v b hb
  · intro hout hfresh
    rw [input_fresh_eq a sender v (by simp [hfresh])]
    rw [try_decide_inputs, try_decide_coin]
    by_cases hc : a.coin_requested
    · rw [if_pos hc]
      exact try_decide_output_none _ hout
    · rw [if_neg hc]
      exact try_decide_output_none _ hout

/-- C8: `ABBA.input` is idempotent per sender — the first input from a
sender is recorded, and every subsequent input from the same sender leaves
the entire instance state unchanged. -/
theorem abba_input_idempotent (a : ABBA) (sender : ℕ) (v w : ℤ) :
    ((a.inputs.lookup sender).isSome → a.input sender w = a)
      ∧ (a.inputs.lookup sender = none → (a.input sender v).inputs.lookup sender = some v) := by
  refine ⟨fun h => ?_, fun h => ?_⟩
  · rw [ABBA.input, if_pos h]
  · rw [input_inputs_fresh a sender v h]
    exact lookup_append_none _ _ _ h

/-- C10: a first input with a vote outside `{0, 1}` is recorded, counts
toward `total_votes`, and contributes to neither `ones` nor `zeros`. -/
theorem abba_nonbinary_vote (a : ABBA) (sender : ℕ) (v : ℤ) (h0 : v ≠ 0) (h1 : v ≠ 1)
    (hf : a.inputs.lookup sender = none) :
    (a.input sender v).inputs.lookup sender = some v
      ∧ (a.input sender v).ones = a.ones
      ∧ (a.input sender v).zeros = a.zeros
      ∧ (a.input sender v).total_votes = a.total_votes + 1 := by
  have hin := input_inputs_fresh a sender v hf
  refine ⟨?_, ?_, ?_, ?_⟩
  · rw [hin]
    exact lookup_append_none _ _ _ hf
  · rw [ABBA.ones, ABBA.ones, hin]
    simp [List.count_append, List.count_cons, h1]
  · rw [ABBA.zeros, ABBA.zeros, hin]
    simp [List.count_append, List.count_cons, h0]
  · rw [ABBA.total_votes, ABBA.total_votes, hin]
    simp

theorem lookup_isSome_mem_keys {α : Type} (l : List (ℕ × α)) (j : ℕ)
    (h : (l.lookup j).isSome) : j ∈ l.map Prod.fst := by
  induction l with
  | nil => simp at h
  | cons p l ih =>
    rcases p with ⟨a, b⟩
    by_cases has : j = a
    · simp [has]
    · have hb : (j == a) = false := by simpa using has
      simp only [List.lookup, hb] at h
      simp [ih h]

/-- Once every sender `1 .. n` has a recorded vote, at least `n` votes are
recorded. -/
theorem run_total_ge (o n t : ℕ) (l : List (ℕ × ℤ))
    (hall : ∀ j : ℕ, 1 ≤ j → j ≤ n → ∃ w : ℤ, (j, w) ∈ l) :
    n ≤ (runInputs (ABBA.init o n t) l).inputs.length := by
  have hsub : (List.range' 1 n).toFinset
      ⊆ ((runInputs (ABBA.init o n t) l).inputs.map Prod.fst).toFinset := by
    intro j hj
    rw [List.mem_toFinset] at hj ⊢
    have hj' := List.mem_range'_1.mp hj
    obtain ⟨w, hw⟩ := hall j hj'.1 (by omega)
    exact lookup_isSome_mem_keys _ _ (run_lookup l j w hw _)
  have h1 : (List.range' 1 n).toFinset.card = n := by
    rw [List.toFinset_card_of_nodup (List.nodup_range' 1 n 1 (by simp))]
    simp
  have h2 := List.toFinset_card_le ((runInputs (ABBA.init o n t) l).inputs.map Prod.fst)
  have h3 := Finset.card_le_card hsub
  have h4 : ((runInputs (ABBA.init o n t) l).inputs.map Prod.fst).length
      = (runInputs (ABBA.init o n t) l).inputs.length := List.length_map _ _
  omega

theorem dictInsert_length_pos {α : Type} (l : List (ℕ × α)) (k : ℕ) (v : α) :
    1 ≤ (dictInsert l k v).length := by
  rw [dictInsert]
  by_cases h : (l.lookup k).isSome
  · rw [if_pos h, List.length_map]
    cases l with
    | nil => simp at h
    | cons p l => simp
  · rw [if_neg h]
    simp

theorem try_compute_coin_some_mono (c : CommonCoin) (h : c._coin_value.isSome) :
    (CommonCoin._try_compute_coin c)._coin_value.isSome := by
  rw [CommonCoin._try_compute_coin]
  split
  · rfl
  · exact h

theorem contribute_share_some_mono (c : CommonCoin) (i r : ℕ)
    (h : c._coin_value.isSome) : (c.contribute_share i r)._coin_value.isSome := by
  rw [CommonCoin.contribute_share]
  exact try_compute_coin_some_mono _ h

/-- With threshold `t = 0` a single contribution already fixes the coin. -/
theorem contribute_share_some_t0 (c : CommonCoin) (i r : ℕ) (ht : c.t = 0) :
    (c.contribute_share i r)._coin_value.isSome := by
  rw [CommonCoin.contribute_share, CommonCoin._try_compute_coin]
  split
  · rfl
  · rename_i hcond
    rcases ho : c._coin_value with _ | x
    · exfalso
      apply hcond
      refine ⟨?_, ho⟩
      have := dictInsert_length_pos c.coin_shares i ((i * 7 + r * 13) % 2)
      simp only [ht]
      omega
    · rfl

theorem input_coin_some_mono (a : ABBA) (s : ℕ) (v : ℤ)
    (h : a.common_coin._coin_value.isSome) :
    (a.input s v).common_coin._coin_value.isSome := by
  rw [ABBA.input]
  split
  · exact h
  · rw [try_decide_coin]
    split
    · exact h
    · exact contribute_share_some_mono _ _ _ h

theorem run_coin_some_mono (l : List (ℕ × ℤ)) (a : ABBA)
    (h : a.common_coin._coin_value.isSome) :
    (runInputs a l).common_coin._coin_value.isSome := by
  induction l generalizing a with
  | nil => exact h
  | cons p l ih => exact ih _ (input_coin_some_mono _ _ _ h)

/-- With `t = 0`, the coin of an ABBA instance that received at least one
input has a value: the very first accepted input contributes the single
share the coin needs. -/
theorem run_coin_some_t0 (o n : ℕ) (p : ℕ × ℤ) (l : List (ℕ × ℤ)) :
    (runInputs (ABBA.init o n 0) (p :: l)).common_coin._coin_value.isSome := by
  have h1 : ((ABBA.init o n 0).input p.1 p.2).common_coin._coin_value.isSome := by
    rw [input_fresh_eq _ _ _ (by simp [ABBA.init, List.lookup]), try_decide_coin]
    rw [if_neg (by simp [ABBA.init])]
    exact contribute_share_some_t0 _ _ _ rfl
  exact run_coin_some_mono l _ h1

/-- C6 (amended): after inputs from all `n` distinct senders have been
received, the instance has a decided output provided at least `n − t` of the
recorded votes are `1`, or at least `n − t` are `0`, or the instance's
common coin has a value — and the coin always has one when `t = 0`, so for
`t = 0` the original claim holds unconditionally.  (The proviso is forced by
`abba_full_inputs_counterexample`: for `t ≥ 1` the coin never obtains a
value because each instance contributes only a single coin share, so split
votes stay undecided.) -/
theorem abba_decides_on_majority (o n t : ℕ) (l : List (ℕ × ℤ)) (hn : 1 ≤ n)
    (hall : ∀ j : ℕ, 1 ≤ j → j ≤ n → ∃ w : ℤ, (j, w) ∈ l)
    (hmaj : (runInputs (ABBA.init o n t) l).ones ≥ n - t
        ∨ (runInputs (ABBA.init o n t) l).zeros ≥ n - t
        ∨ (runInputs (ABBA.init o n t) l).common_coin._coin_value.isSome
        ∨ t = 0) :
    (runInputs (ABBA.init o n t) l)._output.isSome := by
  rcases ho : (runInputs (ABBA.init o n t) l)._output with _ | b
  · exfalso
    rcases run_none_bounds o n t l ho with hemp | ⟨hb1, hb2, hb3⟩
    · obtain ⟨w, hw⟩ := hall 1 le_rfl hn
      have hl := run_lookup l 1 w hw (ABBA.init o n t)
      rw [hemp] at hl
      simp [List.lookup] at hl
    · have htot := run_total_ge o n t l hall
      have hcoinf : (runInputs (ABBA.init o n t) l).common_coin.has_coin_value = false := by
        apply hb3
        rw [ABBA.total_votes]
        omega
      rw [CommonCoin.has_coin_value] at hcoinf
      rcases hmaj with hm | hm | hm | hm
      · omega
      · omega
      · rw [hm] at hcoinf
        simp at hcoinf
      · subst hm
        obtain ⟨w, hw⟩ := hall 1 le_rfl hn
        rcases l with _ | ⟨p, l2⟩
        · simp at hw
        · rw [run_coin_some_t0 o n p l2] at hcoinf
          simp at hcoinf
  · rfl

/-- C6 counterexample: an ABBA instance with `n = 4`, `t = 1` that received
inputs from all four senders (votes 1, 1, 0, 0) has no decided output. -/
theorem abba_full_inputs_counterexample :
    ((List.range' 1 4).all fun j =>
        (([(1, (1 : ℤ)), (2, 1), (3, 0), (4, 0)] : List (ℕ × ℤ)).lookup j).isSome) = true
      ∧ (runInputs (ABBA.init 1 4 1) [(1, 1), (2, 1), (3, 0), (4, 0)])._output = none := by
  decide

/-- Witness for `abba_decides_on_majority` at `n = 2`, `t = 0` with two
`1`-votes. -/
theorem abba_decides_on_majority_witness :
    (runInputs (ABBA.init 1 2 0) [(1, 1), (2, 1)])._output.isSome := by
  apply abba_decides_on_majority 1 2 0 [(1, 1), (2, 1)] (by decide)
  · intro j h1 h2
    interval_cases j
    · exact ⟨1, by decide⟩
    · exact ⟨1, by decide⟩
  · left
    decide

/-- Witness for `abba_decision_rule` on a fresh instance receiving its first
vote. -/
theorem abba_decision_rule_witness :
    (ABBA.input (ABBA.init 1 2 0) 1 1)._output
      = specDecision 2 0 ((ABBA.input (ABBA.init 1 2 0) 1 1).inputs.map Prod.snd)
          ((ABBA.input (ABBA.init 1 2 0) 1 1).common_coin._coin_value) :=
  (abba_decision_rule (ABBA.init 1 2 0) 1 1).2 rfl rfl

/-- Witness for `abba_input_idempotent`: a second input from sender 1 leaves
the state unchanged. -/
theorem abba_input_idempotent_witness :
    ABBA.input (ABBA.input (ABBA.init 1 2 0) 1 1) 1 0 = ABBA.input (ABBA.init 1 2 0) 1 1 :=
  (abba_input_idempotent (ABBA.input (ABBA.init 1 2 0) 1 1) 1 0 0).1 (by decide)

/-- Witness for `abba_nonbinary_vote` at vote value 5. -/
theorem abba_nonbinary_vote_witness :
    (ABBA.input (ABBA.init 1 4 1) 2 5).inputs.lookup 2 = some 5
      ∧ (ABBA.input (ABBA.init 1 4 1) 2 5).ones = (ABBA.init 1 4 1).ones
      ∧ (ABBA.input (ABBA.init 1 4 1) 2 5).zeros = (ABBA.init 1 4 1).zeros
      ∧ (ABBA.input (ABBA.init 1 4 1) 2 5).total_votes = (ABBA.init 1 4 1).total_votes + 1 :=
  abba_nonbinary_vote (ABBA.init 1 4 1) 2 5 (by decide) (by decide) (by decide)

/-- `_process_share` with the `do`-notation unfolded into explicit binds. -/
theorem process_share_eq (env : Env) (sys : Sys) (i sender : ℕ) (share : ℤ × ℤ) :
    _process_share env sys i sender share
      = (sys.nodes.lookup i).bind fun node =>
          (node._shares.get? (sender - 1)).bind fun exp =>
            if share.1 ≠ exp.1 then none
            else
              let vote : ℤ :=
                if node.is_byzantine then env.byz i sender
                else if share.2 = exp.2 then 1 else 0
              (sys.setNode i { node with vi := dictInsert node.vi sender (some vote) }).bind
                fun sys1 => (sys1.injectVotes sender i vote).bind fun sys2 =>
                  (sys2.nodes.lookup i).bind fun node1 =>
                    node1._process_abba.bind fun node2 => sys2.setNode i node2 := rfl

/-- C5 (amended): during share validation, an incoming share whose `x`
coordinate differs from the expected `own_shares[sender].x` triggers the
`assert` — the error surfaces to the caller (`none`) and no vote is cast;
only a share with the expected `x` whose `y` differs is treated as a vote of
`0`, with processing continuing normally. -/
theorem share_validation (env : Env) (sys : Sys) (i sender : ℕ) (share : ℤ × ℤ)
    (node : NodeState) (exp : ℤ × ℤ)
    (hn : sys.nodes.lookup i = some node)
    (hexp : node._shares.get? (sender - 1) = some exp)
    (hhon : node.is_byzantine = false) :
    (share.1 ≠ exp.1 → _process_share env sys i sender share = none)
      ∧ (share.1 = exp.1 → share.2 ≠ exp.2 →
          _process_share env sys i sender share
            = (sys.setNode i { node with vi := dictInsert node.vi sender (some 0) }).bind
                fun sys1 => (sys1.injectVotes sender i 0).bind fun sys2 =>
                  (sys2.nodes.lookup i).bind fun node1 =>
                    node1._process_abba.bind fun node2 => sys2.setNode i node2) := by
  rw [process_share_eq, hn, Option.some_bind, hexp, Option.some_bind]
  constructor
  · intro hx
    rw [if_pos hx]
  · intro hx hy
    rw [if_neg (not_not_intro hx)]
    simp only [hhon, Bool.false_eq_true, if_false, if_neg hy]




set_option maxRecDepth 10000 in
/-- C5 counterexample: in `demoSys`, node 1 expects share `(2, 5)` from
node 2; delivering `(3, 5)` (mismatched `x`) makes `_process_share` raise
(`none`) instead of recording a `0` vote. -/
theorem share_mismatch_counterexample :
    demoNode._shares.get? 1 = some ((2 : ℤ), 5)
      ∧ _process_share demoEnv demoSys 1 2 ((3 : ℤ), 5) = none := by
  decide

/-- Witness for `share_validation`: a share with matching `x = 2` but
`y = 7 ≠ 5` is processed as a vote of `0`. -/
theorem share_validation_witness :
    _process_share demoEnv demoSys 1 2 ((2 : ℤ), 7)
      = (demoSys.setNode 1 { demoNode with vi := dictInsert demoNode.vi 2 (some 0) }).bind
          fun sys1 => (sys1.injectVotes 2 1 0).bind fun sys2 =>
            (sys2.nodes.lookup 1).bind fun node1 =>
              node1._process_abba.bind fun node2 => sys2.setNode 1 node2 :=
  (share_validation demoEnv demoSys 1 2 ((2 : ℤ), 7) demoNode ((2 : ℤ), 5)
    (by decide) (by decide) (by decide)).2 (by decide) (by decide)


set_option maxRecDepth 10000 in
/-- C1 (code bug): at `cexFinalizeNode` the premises of the claim hold
(`A = {1,2,3}` has `≥ t+1 = 2` members, `B = [1,2]`, both members have
recorded `received_share`s `(1,5)` and `(2,5)`), yet `_finalize` sets
`final = 6` — the decode of the node's **own** shares `[(1,6),(2,6)]` —
while `Decode` of the received broadcast shares is `5`.  `complete` is set. -/
theorem finalize_decodes_own_shares :
    (cexFinalizeNode._finalize.map fun nd => (nd.final_decision, nd.protocol_complete))
        = some (some 6, true)
      ∧ cexFinalizeNode.rbc_shares.lookup 1 = some ((1 : ℤ), 5)
      ∧ cexFinalizeNode.rbc_shares.lookup 2 = some ((2 : ℤ), 5)
      ∧ ECDec 4 2 [((1 : ℤ), (5 : ℤ)), (2, 5)] = some 5 := by
  decide


set_option maxRecDepth 100000 in
/-- C3 (code bug): in the reachable run `runC3` (four honest nodes, three
propose 5 and one proposes 6), honest nodes 1 and 4 both reach
`complete = true` with non-⊥ finals 5 and 6 respectively — Agreement is
violated, because `_finalize` reconstructs from the node's own shares. -/
theorem agreement_violated :
    ((runC3.bind fun s => s.nodes.lookup 1).map
        fun nd => (nd.is_byzantine, nd.protocol_complete, nd.final_decision))
        = some (false, true, some 5)
      ∧ ((runC3.bind fun s => s.nodes.lookup 4).map
        fun nd => (nd.is_byzantine, nd.protocol_complete, nd.final_decision))
        = some (false, true, some 6) := by
  decide

set_option maxRecDepth 10000 in
/-- C2 counterexample: at `n = _PRIME + 1 ≥ 1`, `k = 2 ≤ n`,
`secret = 1 ∈ [0, _PRIME)`, the 2-subset `{(1, 1), (_PRIME + 1, 1)}` of the
encoder output decodes to `0`, not to the secret `1` (the x-coordinates `1`
and `_PRIME + 1` coincide modulo `_PRIME`). -/
theorem codec_roundtrip_counterexample :
    ECEnc (fun _ => 0) (_PRIME + 1) 2 1 = some cexShares
      ∧ (1 ≤ 2 ∧ 2 ≤ _PRIME + 1 ∧ (0 : ℤ) ≤ 1 ∧ (1 : ℤ) < (_PRIME : ℤ))
      ∧ ([((1 : ℤ), (1 : ℤ)), (((_PRIME : ℕ) : ℤ) + 1, 1)] : List (ℤ × ℤ)) ⊆ cexShares
      ∧ ([((1 : ℤ), (1 : ℤ)), (((_PRIME : ℕ) : ℤ) + 1, 1)] : List (ℤ × ℤ)).Nodup
      ∧ ([((1 : ℤ), (1 : ℤ)), (((_PRIME : ℕ) : ℤ) + 1, 1)] : List (ℤ × ℤ)).length = 2
      ∧ ECDec (_PRIME + 1) 2 [((1 : ℤ), (1 : ℤ)), (((_PRIME : ℕ) : ℤ) + 1, 1)] = some 0
      ∧ ECDec (_PRIME + 1) 2 [((1 : ℤ), (1 : ℤ)), (((_PRIME : ℕ) : ℤ) + 1, 1)] ≠ some 1 := by
  have h1 : ((1 : ℤ), (1 : ℤ)) ∈ cexShares := by
    rw [cexShares]
    refine List.mem_map.mpr ⟨1, ?_, by decide⟩
    rw [List.mem_range'_1]
    omega
  have h2 : ((((_PRIME : ℕ) : ℤ)) + 1, (1 : ℤ)) ∈ cexShares := by
    rw [cexShares]
    refine List.mem_map.mpr ⟨_PRIME + 1, ?_, by decide⟩
    rw [List.mem_range'_1]
    omega
  refine ⟨rfl, ⟨by omega, by decide, by decide, by decide⟩, ?_, by decide, by decide,
    by decide, by decide⟩
  intro p hp
  rcases List.mem_cons.mp hp with rfl | hp
  · exact h1
  · rcases List.mem_cons.mp hp with rfl | hp
    · exact h2
    · simp at hp

/-- C4 (amended): `ECDec` rejects exactly when it is given no shares at all
(`shares = []` or `k = 0`, where unpacking the empty `zip` raises); it does
not reject fewer-than-`k` nonempty share lists, nor duplicate `x`
coordinates (`ECDec_reject_counterexample`). -/
theorem ECDec_none_iff (n k : ℕ) (shares : List (ℤ × ℤ)) :
    ECDec n k shares = none ↔ k = 0 ∨ shares = [] := by
  rw [ECDec, ← List.take_eq_nil_iff]
  split <;> simp_all

set_option maxRecDepth 10000 in
/-- C4 counterexample: with threshold `k = 2`, a single share (one fewer
than `k`) is not rejected but interpolated, and two shares with equal `x`
are not rejected either (the inverse of the zero denominator is `0`, making
the result `0`). -/
theorem ECDec_reject_counterexample :
    ECDec 3 2 [((1 : ℤ), (5 : ℤ))] = some 5
      ∧ ECDec 3 2 [((1 : ℤ), (7 : ℤ)), (1, 9)] = some 0 := by
  decide

/-- C9: `ECDec` depends only on the first `k` shares of its input list. -/
theorem ECDec_take_prefix (n k : ℕ) (shares : List (ℤ × ℤ)) (h : k ≤ shares.length) :
    ECDec n k shares = ECDec n k (shares.take k) := by
  rw [ECDec, ECDec, List.take_take, min_self]

/-- Witness for `ECDec_take_prefix` on a three-share list with `k = 2`. -/
theorem ECDec_take_prefix_witness :
    ECDec 4 2 [((1 : ℤ), (5 : ℤ)), (2, 6), (3, 7)]
      = ECDec 4 2 ([((1 : ℤ), (5 : ℤ)), (2, 6), (3, 7)].take 2) :=
  ECDec_take_prefix 4 2 [((1 : ℤ), (5 : ℤ)), (2, 6), (3, 7)] (by decide)

/-- Witness for `codec_roundtrip`: secret 7, `n = 3`, `k = 2`, draw stream
constantly 3 (shares `(1,10), (2,13), (3,16)`), subset `{(1,10), (3,16)}`. -/
theorem codec_roundtrip_witness :
    ECDec 3 2 [((1 : ℤ), (10 : ℤ)), (3, 16)] = some 7 :=
  codec_roundtrip (fun _ => 3) 3 2 7 [(1, 10), (2, 13), (3, 16)] [(1, 10), (3, 16)]
    (by decide) (by decide) (by decide) (by decide) (by decide) (by decide) (by decide)
    (by decide) (by decide)

end OciorABA
